import Mathlib

/-!
Formal model of the LLM-Powered Insurance Policy Query System.

Python strings are modelled as lists of characters (`Str := List Char`),
which matches Python's view of a `str` as a sequence of code points and
keeps every operation computable by structural recursion.  Library
primitives that are not part of the repository (the MD5 hex digest,
Python's builtin `hash`, the Pinecone client, the LLM client) are taken
as parameters of the definitions that call them; everything else is
translated directly from the Python sources.
-/

/-- Python `str` as a list of characters (code points). -/
abbrev Str := List Char

/-- Python `s.split(sep)` for a single-character separator: splits on every
occurrence of `sep`, keeping empty pieces, and returns `[""]` on `""`. -/
def splitOnChar (sep : Char) : Str → List Str
  | [] => [[]]
  | c :: cs =>
    match splitOnChar sep cs with
    | [] => [[c]]
    | h :: t => if c = sep then [] :: h :: t else (c :: h) :: t

/-- Helper for `splitWs`: accumulates the current word in reverse. -/
def splitWsAux : List Char → List Char → List Str
  | [], acc => if acc = [] then [] else [acc.reverse]
  | c :: cs, acc =>
    if c.isWhitespace then
      (if acc = [] then splitWsAux cs [] else acc.reverse :: splitWsAux cs [])
    else splitWsAux cs (c :: acc)

/-- Python `s.split()` with no argument: splits on runs of whitespace and
never returns empty words. -/
def splitWs (s : Str) : List Str := splitWsAux s []

/-- Python `s.strip()`: removes leading and trailing whitespace. -/
def pyStrip (s : Str) : Str :=
  ((s.dropWhile Char.isWhitespace).reverse.dropWhile Char.isWhitespace).reverse

/-- Python `s.lower()` (restricted to the ASCII case mapping). -/
def pyLower (s : Str) : Str := s.map Char.toLower

/-- Python `needle in hay` substring test on strings. -/
def containsSub (needle : Str) : Str → Bool
  | [] => needle.isEmpty
  | c :: cs => needle.isPrefixOf (c :: cs) || containsSub needle cs

/-- Python `sep.join(parts)`. -/
def joinWith (sep : Str) : List Str → Str
  | [] => []
  | [p] => p
  | p :: q :: ps => p ++ sep ++ joinWith sep (q :: ps)

/-- Python `s.endswith(t)`. -/
def pyEndsWith (s t : Str) : Bool := t.isSuffixOf s

/-! ## DocumentParser.split_into_chunks (src/document_parser.py, lines 21-46)

`count_tokens` calls the external `tiktoken` tokenizer, so the token
counter is a parameter `tc : Str → Nat` of the model. -/

/-- The paragraph list of `DocumentParser.split_into_chunks`:
`[p.strip() for p in text.split('\n') if p.strip()]`. -/
def paragraphs (text : Str) : List Str :=
  ((splitOnChar '\n' text).map pyStrip).filter (fun p => p ≠ [])

/-- The accumulation loop of `DocumentParser.split_into_chunks`: walks the
paragraphs keeping the current chunk `cur` and its token total `curTok`,
flushing `cur.strip()` whenever adding the next paragraph would exceed
`maxT` and `cur` is nonempty. -/
def chunkLoop (tc : Str → Nat) (maxT : Nat) : List Str → Str → Nat → List Str
  | [], cur, _ => if cur = [] then [] else [pyStrip cur]
  | p :: ps, cur, curTok =>
    if curTok + tc p > maxT ∧ cur ≠ [] then
      pyStrip cur :: chunkLoop tc maxT ps p (tc p)
    else
      chunkLoop tc maxT ps (if cur = [] then p else cur ++ '\n' :: p) (curTok + tc p)

/-- `DocumentParser.split_into_chunks(text)` with token counter `tc` and
`max_tokens_per_chunk = maxT` (the constructor default is 1000). -/
def splitIntoChunks (tc : Str → Nat) (maxT : Nat) (text : Str) : List Str :=
  chunkLoop tc maxT (paragraphs text) [] 0

/-- The string a group of paragraphs accumulates to inside the loop:
paragraphs joined by single newlines. -/
def joinPar : List Str → Str
  | [] => []
  | [p] => p
  | p :: q :: ps => p ++ '\n' :: joinPar (q :: ps)

lemma joinPar_ne_nil {g : List Str} (hg : g ≠ []) (hp : ∀ p ∈ g, p ≠ []) :
    joinPar g ≠ [] := by
  match g with
  | [] => exact absurd rfl hg
  | [p] => exact hp p (by simp)
  | p :: q :: ps =>
    have hpne : p ≠ [] := hp p (by simp)
    simp only [joinPar]
    intro h
    rcases List.append_eq_nil.mp h with ⟨h1, _⟩
    exact hpne h1

lemma joinPar_cons_cons (p q : Str) (ps : List Str) :
    joinPar (p :: q :: ps) = p ++ '\n' :: joinPar (q :: ps) := rfl

lemma joinPar_append_single : ∀ (g : List Str) (p : Str), g ≠ [] →
    joinPar (g ++ [p]) = joinPar g ++ '\n' :: p
  | [], _, hg => absurd rfl hg
  | [q], p, _ => by simp [joinPar]
  | q :: r :: g', p, _ => by
    have ih := joinPar_append_single (r :: g') p (by simp)
    simp only [List.cons_append] at ih ⊢
    calc joinPar (q :: r :: (g' ++ [p]))
        = q ++ '\n' :: joinPar (r :: (g' ++ [p])) := joinPar_cons_cons ..
      _ = q ++ '\n' :: (joinPar (r :: g') ++ '\n' :: p) := by rw [ih]
      _ = (q ++ '\n' :: joinPar (r :: g')) ++ '\n' :: p := by simp
      _ = joinPar (q :: r :: g') ++ '\n' :: p := by rw [joinPar_cons_cons]

/-- Invariant proof for the chunk loop: starting from a nonempty group `g`
of nonempty paragraphs whose token sum is within budget (or which is a
single paragraph), the loop emits stripped joins of nonempty groups whose
concatenation is exactly `g ++ ps`, and every emitted group either fits the
token budget or is a single oversized paragraph. -/
lemma chunkLoop_spec (tc : Str → Nat) (maxT : Nat) :
    ∀ (ps : List Str) (g : List Str), g ≠ [] → (∀ p ∈ g, p ≠ []) →
      (∀ p ∈ ps, p ≠ []) →
      ((g.map tc).sum ≤ maxT ∨ ∃ p, g = [p]) →
      ∃ gs : List (List Str),
        chunkLoop tc maxT ps (joinPar g) ((g.map tc).sum) =
          gs.map (fun h => pyStrip (joinPar h)) ∧
        gs.flatten = g ++ ps ∧
        ∀ h ∈ gs, h ≠ [] ∧
          ((h.map tc).sum ≤ maxT ∨ ∃ p, h = [p] ∧ maxT < tc p) := by
  intro ps
  induction ps with
  | nil =>
    intro g hg hgp _ hinv
    refine ⟨[g], ?_, by simp, ?_⟩
    · simp [chunkLoop, joinPar_ne_nil hg hgp]
    · intro h hh
      simp only [List.mem_singleton] at hh
      subst hh
      refine ⟨hg, ?_⟩
      rcases hinv with hle | ⟨p, rfl⟩
      · exact Or.inl hle
      · rcases le_or_lt (tc p) maxT with hle | hlt
        · exact Or.inl (by simpa using hle)
        · exact Or.inr ⟨p, rfl, hlt⟩
  | cons p ps' ih =>
    intro g hg hgp hps hinv
    have hpne : p ≠ [] := hps p (by simp)
    have hps' : ∀ q ∈ ps', q ≠ [] := fun q hq => hps q (by simp [hq])
    have hjne : joinPar g ≠ [] := joinPar_ne_nil hg hgp
    by_cases hgt : (g.map tc).sum + tc p > maxT
    · -- flush branch
      have hcond : (g.map tc).sum + tc p > maxT ∧ joinPar g ≠ [] := ⟨hgt, hjne⟩
      obtain ⟨gs', heq', hjoin', hprop'⟩ :=
        ih [p] (by simp) (by simpa using hpne) hps' (Or.inr ⟨p, rfl⟩)
      refine ⟨g :: gs', ?_, ?_, ?_⟩
      · have heq2 : chunkLoop tc maxT ps' p (tc p) =
            gs'.map (fun h => pyStrip (joinPar h)) := by
          simpa [joinPar] using heq'
        simp [chunkLoop, hcond, heq2]
      · simp [hjoin']
      · intro h hh
        rcases List.mem_cons.mp hh with rfl | hh'
        · refine ⟨hg, ?_⟩
          rcases hinv with hle | ⟨q, rfl⟩
          · exact Or.inl hle
          · rcases le_or_lt (tc q) maxT with hle | hlt
            · exact Or.inl (by simpa using hle)
            · exact Or.inr ⟨q, rfl, hlt⟩
        · exact hprop' h hh'
    · -- accumulate branch
      have hle : (g.map tc).sum + tc p ≤ maxT := le_of_not_lt hgt
      have hcond : ¬((g.map tc).sum + tc p > maxT ∧ joinPar g ≠ []) := by
        intro hc
        exact hgt hc.1
      obtain ⟨gs', heq', hjoin', hprop'⟩ :=
        ih (g ++ [p]) (by simp) (by
          intro q hq
          rcases List.mem_append.mp hq with hq' | hq'
          · exact hgp q hq'
          · simpa using (List.mem_singleton.mp hq' ▸ hpne)) hps'
          (Or.inl (by simpa using hle))
      refine ⟨gs', ?_, ?_, hprop'⟩
      · simp only [chunkLoop, if_neg hcond, if_neg hjne]
        rw [joinPar_append_single g p hg] at heq'
        have hsum : ((g ++ [p]).map tc).sum = (g.map tc).sum + tc p := by
          simp
        rw [hsum] at heq'
        exact heq'
      · rw [hjoin']
        simp

/-- Membership of a paragraph list's elements is preserved from the filter
that builds `paragraphs`. -/
lemma paragraphs_ne_nil (text : Str) : ∀ p ∈ paragraphs text, p ≠ [] := by
  intro p hp
  have := List.of_mem_filter hp
  simpa using this

/-- Structure of the chunker output: every run of `splitIntoChunks` is the
image of a list of nonempty paragraph groups whose concatenation is exactly
the paragraph list, each emitted chunk being the stripped newline-join of
its group, and each group fitting the token budget unless it is a single
oversized paragraph. -/
lemma splitIntoChunks_groups (tc : Str → Nat) (maxT : Nat) (text : Str) :
    ∃ gs : List (List Str),
      splitIntoChunks tc maxT text = gs.map (fun h => pyStrip (joinPar h)) ∧
      gs.flatten = paragraphs text ∧
      ∀ h ∈ gs, h ≠ [] ∧
        ((h.map tc).sum ≤ maxT ∨ ∃ p, h = [p] ∧ maxT < tc p) := by
  unfold splitIntoChunks
  rcases hP : paragraphs text with _ | ⟨q, qs⟩
  · exact ⟨[], by simp [chunkLoop], by simp, by simp⟩
  · have hqne : q ≠ [] := paragraphs_ne_nil text q (by rw [hP]; simp)
    have hqs : ∀ p ∈ qs, p ≠ [] := fun p hp =>
      paragraphs_ne_nil text p (by rw [hP]; simp [hp])
    have hstep : chunkLoop tc maxT (q :: qs) [] 0 =
        chunkLoop tc maxT qs q (tc q) := by
      simp [chunkLoop]
    obtain ⟨gs, heq, hjoin, hprop⟩ :=
      chunkLoop_spec tc maxT qs [q] (by simp) (by simpa using hqne) hqs
        (Or.inr ⟨q, rfl⟩)
    refine ⟨gs, ?_, by simpa using hjoin, hprop⟩
    rw [hstep]
    simpa [joinPar] using heq

/-! ## Strip is the identity on chunker output

Every paragraph is already stripped and nonempty, so the `strip()` the
code applies when emitting a chunk does not change the joined text. -/

lemma dropWhile_head_false {p : Char → Bool} :
    ∀ {l : Str} {a : Char} {t : Str}, l.dropWhile p = a :: t → p a = false := by
  intro l
  induction l with
  | nil => intro a t h; simp at h
  | cons c cs ih =>
    intro a t h
    rw [List.dropWhile_cons] at h
    by_cases hc : p c = true
    · exact ih (by simpa [hc] using h)
    · have : c = a := by
        simpa [hc] using congrArg (fun l => l.head?) h
      subst this
      simpa using hc

lemma dropWhile_eq_self_of_head {p : Char → Bool} {a : Char} {t : Str}
    (h : p a = false) : (a :: t).dropWhile p = a :: t := by
  rw [List.dropWhile_cons, h]
  simp

lemma pyStrip_eq_self {s : Str} {a b : Char} {t u : Str}
    (hs : s = a :: t) (ha : Char.isWhitespace a = false)
    (hr : s.reverse = b :: u) (hb : Char.isWhitespace b = false) :
    pyStrip s = s := by
  subst hs
  unfold pyStrip
  rw [dropWhile_eq_self_of_head ha, hr, dropWhile_eq_self_of_head hb, ← hr,
    List.reverse_reverse]

/-- Every nonempty output of `pyStrip` begins and ends with a
non-whitespace character. -/
lemma pyStrip_head_last (s : Str) :
    pyStrip s = [] ∨ ∃ a t b u, pyStrip s = a :: t ∧
      Char.isWhitespace a = false ∧
      (pyStrip s).reverse = b :: u ∧ Char.isWhitespace b = false := by
  set t1 := s.dropWhile Char.isWhitespace with ht1
  set u0 := t1.reverse.dropWhile Char.isWhitespace with hu0
  have hps : pyStrip s = u0.reverse := rfl
  rcases hu : u0 with _ | ⟨b, u'⟩
  · left
    rw [hps, hu]
    rfl
  · right
    have hb : Char.isWhitespace b = false := dropWhile_head_false (hu0 ▸ hu)
    have hrev : (pyStrip s).reverse = b :: u' := by
      rw [hps, List.reverse_reverse, hu]
    have ht1ne : t1 ≠ [] := by
      intro h0
      rw [h0] at hu0
      simp [hu0] at hu
    obtain ⟨a, t'', ht1eq⟩ : ∃ a t'', t1 = a :: t'' := by
      rcases t1 with _ | ⟨a, t''⟩
      · exact absurd rfl ht1ne
      · exact ⟨a, t'', rfl⟩
    have ha : Char.isWhitespace a = false := dropWhile_head_false (ht1 ▸ ht1eq)
    have hdecomp : t1.reverse.takeWhile Char.isWhitespace ++ u0 = t1.reverse :=
      hu0 ▸ List.takeWhile_append_dropWhile Char.isWhitespace t1.reverse
    have ht1split : t1 = u0.reverse ++ (t1.reverse.takeWhile Char.isWhitespace).reverse := by
      conv_lhs => rw [← List.reverse_reverse t1, ← hdecomp]
      rw [List.reverse_append]
    rcases hur : u0.reverse with _ | ⟨c, r'⟩
    · exfalso
      have := congrArg List.reverse hur
      rw [List.reverse_reverse] at this
      simp [this] at hu
    · rw [ht1eq, hur] at ht1split
      simp only [List.cons_append] at ht1split
      obtain ⟨hac, -⟩ := List.cons.inj ht1split
      refine ⟨a, r', b, u', ?_, ha, hrev, hb⟩
      rw [hps, hur, ← hac]

lemma paragraph_head_last {text : Str} {p : Str} (hp : p ∈ paragraphs text) :
    ∃ a t b u, p = a :: t ∧ Char.isWhitespace a = false ∧
      p.reverse = b :: u ∧ Char.isWhitespace b = false := by
  have hpne : p ≠ [] := paragraphs_ne_nil text p hp
  have hmem := List.mem_of_mem_filter hp
  obtain ⟨raw, _, hraw⟩ := List.mem_map.mp hmem
  rcases pyStrip_head_last raw with h0 | ⟨a, t, b, u, h1, h2, h3, h4⟩
  · exact absurd (hraw ▸ h0) hpne
  · exact ⟨a, t, b, u, hraw ▸ h1, h2, hraw ▸ h3, h4⟩

/-- Stripping is the identity on the newline-join of a nonempty group of
stripped nonempty paragraphs. -/
lemma pyStrip_joinPar {h : List Str} (hne : h ≠ [])
    (hall : ∀ p ∈ h, ∃ a t b u, p = a :: t ∧ Char.isWhitespace a = false ∧
      p.reverse = b :: u ∧ Char.isWhitespace b = false) :
    pyStrip (joinPar h) = joinPar h := by
  obtain ⟨p0, rest, rfl⟩ : ∃ p0 rest, h = p0 :: rest := by
    rcases h with _ | ⟨p0, rest⟩
    · exact absurd rfl hne
    · exact ⟨p0, rest, rfl⟩
  obtain ⟨a, t, _, _, hp0, ha, _, _⟩ := hall p0 (by simp)
  have hhead : ∃ r, joinPar (p0 :: rest) = a :: (t ++ r) := by
    rcases rest with _ | ⟨q, qs⟩
    · exact ⟨[], by simp [joinPar, hp0]⟩
    · exact ⟨'\n' :: joinPar (q :: qs), by simp [joinPar_cons_cons, hp0]⟩
  obtain ⟨r, hjoin⟩ := hhead
  rcases List.eq_nil_or_concat (p0 :: rest) with habs | ⟨L, plast, hconcat⟩
  · simp at habs
  · rw [List.concat_eq_append] at hconcat
    have hplast : plast ∈ p0 :: rest := by
      rw [hconcat]
      simp
    obtain ⟨_, _, b, u, _, _, hpl, hb⟩ := hall plast hplast
    have hlast : ∃ w, (joinPar (p0 :: rest)).reverse = b :: (u ++ w) := by
      rcases hL : L with _ | ⟨l0, ls⟩
      · refine ⟨[], ?_⟩
        rw [hconcat, hL]
        simpa [joinPar] using hpl
      · refine ⟨'\n' :: (joinPar L).reverse, ?_⟩
        rw [hconcat, joinPar_append_single L plast (by rw [hL]; simp)]
        rw [List.reverse_append]
        simp [hpl, hL]
    obtain ⟨w, hrev⟩ := hlast
    exact pyStrip_eq_self hjoin ha hrev hb

/-- C1: every chunk returned by `DocumentParser.split_into_chunks` is the
newline-join of a nonempty group of input paragraphs whose estimated token
count (the per-paragraph sum the code accumulates) is at most the
configured maximum `maxT`, except when the group is a single paragraph
whose own token count already exceeds the maximum, which is emitted as an
oversized singleton. -/
theorem splitIntoChunks_token_bound (tc : Str → Nat) (maxT : Nat) (text : Str)
    (c : Str) (hc : c ∈ splitIntoChunks tc maxT text) :
    ∃ h : List Str, h ≠ [] ∧ (∀ p ∈ h, p ∈ paragraphs text) ∧
      c = joinPar h ∧
      ((h.map tc).sum ≤ maxT ∨ ∃ p, h = [p] ∧ maxT < tc p) := by
  obtain ⟨gs, heq, hjoin, hprop⟩ := splitIntoChunks_groups tc maxT text
  rw [heq] at hc
  obtain ⟨h, hh, hmap⟩ := List.mem_map.mp hc
  have hmem : ∀ p ∈ h, p ∈ paragraphs text := by
    intro p hp
    rw [← hjoin]
    exact List.mem_flatten.mpr ⟨h, hh, hp⟩
  obtain ⟨hne, hbound⟩ := hprop h hh
  have hstrip : pyStrip (joinPar h) = joinPar h :=
    pyStrip_joinPar hne (fun p hp => paragraph_head_last (hmem p hp))
  exact ⟨h, hne, hmem, by rw [← hmap, hstrip], hbound⟩

/-- Witness for C1 at a concrete input: with token counter `List.length`
and maximum 3, the text `"ab\ncdef\ng"` produces the oversized singleton
chunk `"cdef"`, and the theorem applies to it. -/
theorem splitIntoChunks_token_bound_witness :
    "cdef".toList ∈ splitIntoChunks List.length 3 "ab\ncdef\ng".toList ∧
    ∃ h : List Str, h ≠ [] ∧
      (∀ p ∈ h, p ∈ paragraphs "ab\ncdef\ng".toList) ∧
      "cdef".toList = joinPar h ∧
      ((h.map List.length).sum ≤ 3 ∨ ∃ p, h = [p] ∧ 3 < List.length p) :=
  ⟨by decide,
   splitIntoChunks_token_bound List.length 3 "ab\ncdef\ng".toList "cdef".toList
     (by decide)⟩

/-- C4: the chunker drops and duplicates nothing: the chunk list is the
image under the newline-join of a list of paragraph groups whose
concatenation is exactly the input's non-blank-line content (its stripped
nonempty lines), and the empty string yields an empty chunk list. -/
theorem splitIntoChunks_lossless (tc : Str → Nat) (maxT : Nat) (text : Str) :
    (∃ gs : List (List Str),
      splitIntoChunks tc maxT text = gs.map joinPar ∧
      gs.flatten = paragraphs text) ∧
    splitIntoChunks tc maxT "".toList = [] := by
  constructor
  · obtain ⟨gs, heq, hjoin, hprop⟩ := splitIntoChunks_groups tc maxT text
    refine ⟨gs, ?_, hjoin⟩
    rw [heq]
    apply List.map_congr_left
    intro h hh
    have hmem : ∀ p ∈ h, p ∈ paragraphs text := by
      intro p hp
      rw [← hjoin]
      exact List.mem_flatten.mpr ⟨h, hh, hp⟩
    exact pyStrip_joinPar (hprop h hh).1
      (fun p hp => paragraph_head_last (hmem p hp))
  · rfl

/-! ## GroqService._fallback_evaluate_clause (src/groq_service.py, lines 190-223) -/

/-- The deduplicated lowercase word set of a string, as built by
`set(s.lower().split())`; the set is modelled as a duplicate-free list. -/
def wordSet (s : Str) : List Str := (splitWs (pyLower s)).dedup

/-- Size of the intersection of the query and clause word sets:
`len(query_words.intersection(clause_words))`. -/
def wordOverlap (query clause : Str) : Nat :=
  ((wordSet query).filter (fun w => w ∈ wordSet clause)).length

/-- The confidence computed by `_fallback_evaluate_clause`:
`0.0` when the query has no words, otherwise
`min(overlap / total_query_words, 1.0)`. -/
def fallbackConfidence (query clause : Str) : ℚ :=
  if (wordSet query).length = 0 then 0
  else min ((wordOverlap query clause : ℚ) / ((wordSet query).length : ℚ)) 1

/-- Result dictionary of `_fallback_evaluate_clause`. -/
structure ClauseEval where
  answer : Str
  directAnswer : Str
  explanation : Str
  confidence : ℚ

/-- `GroqService._fallback_evaluate_clause(query, clause)`. -/
def fallbackEvaluateClause (query clause : Str) : ClauseEval :=
  if fallbackConfidence query clause > 3/10 then
    { answer := "yes".toList
      directAnswer :=
        if clause.length > 200 then clause.take 200 ++ "...".toList else clause
      explanation := "Clause contains ".toList ++
        (toString (wordOverlap query clause)).toList ++ " relevant keywords".toList
      confidence := fallbackConfidence query clause }
  else
    { answer := "no".toList
      directAnswer := "No relevant information found".toList
      explanation := "Clause doesn".toList ++ ['\''] ++
        "t contain relevant keywords".toList
      confidence := fallbackConfidence query clause }

lemma wordOverlap_le (query clause : Str) :
    wordOverlap query clause ≤ (wordSet query).length :=
  List.length_filter_le _ _

/-- The `min(..., 1.0)` clamp in the code is redundant: the intersection is
never larger than the query word set. -/
lemma fallbackConfidence_eq (query clause : Str) :
    fallbackConfidence query clause =
      if (wordSet query).length = 0 then 0
      else (wordOverlap query clause : ℚ) / ((wordSet query).length : ℚ) := by
  unfold fallbackConfidence
  by_cases hT : (wordSet query).length = 0
  · simp [hT]
  · have hpos : (0 : ℚ) < ((wordSet query).length : ℚ) := by
      exact_mod_cast Nat.pos_of_ne_zero hT
    have hle : (wordOverlap query clause : ℚ) /
        ((wordSet query).length : ℚ) ≤ 1 :=
      (div_le_one hpos).mpr (by exact_mod_cast wordOverlap_le query clause)
    simp [hT, min_eq_left hle]

lemma fallbackConfidence_nonneg (query clause : Str) :
    0 ≤ fallbackConfidence query clause := by
  rw [fallbackConfidence_eq]
  by_cases hT : (wordSet query).length = 0
  · simp [hT]
  · have hpos : (0 : ℚ) < ((wordSet query).length : ℚ) := by
      exact_mod_cast Nat.pos_of_ne_zero hT
    simp only [hT, if_false]
    positivity

lemma fallbackConfidence_le_one (query clause : Str) :
    fallbackConfidence query clause ≤ 1 := by
  unfold fallbackConfidence
  by_cases hT : (wordSet query).length = 0
  · simp [hT]
  · simp [hT, min_le_right]

/-- C2: the fallback clause evaluation returns a confidence equal to the
word-set intersection size over the query word-set size (0 when the query
has no words), always in `[0, 1]`; `answer` is `"yes"` exactly when the
confidence exceeds `0.3`; `direct_answer` is the clause truncated to 200
characters with an ellipsis when longer, and the fixed
no-relevant-information string when the answer is `"no"`.  In particular
the documented example evaluates to `"yes"` with confidence above `0.3`. -/
theorem fallbackEvaluateClause_spec :
    (∀ query clause : Str,
      0 ≤ (fallbackEvaluateClause query clause).confidence ∧
      (fallbackEvaluateClause query clause).confidence ≤ 1 ∧
      (fallbackEvaluateClause query clause).confidence =
        (if (wordSet query).length = 0 then 0
         else (wordOverlap query clause : ℚ) / ((wordSet query).length : ℚ)) ∧
      ((fallbackEvaluateClause query clause).answer = "yes".toList ↔
        (fallbackEvaluateClause query clause).confidence > 3/10) ∧
      (fallbackEvaluateClause query clause).directAnswer =
        (if (fallbackEvaluateClause query clause).confidence > 3/10 then
          (if clause.length > 200 then clause.take 200 ++ "...".toList else clause)
         else "No relevant information found".toList)) ∧
    ((fallbackEvaluateClause "Is knee surgery covered?".toList
        "Knee surgery is covered under this policy.".toList).confidence > 3/10 ∧
      (fallbackEvaluateClause "Is knee surgery covered?".toList
        "Knee surgery is covered under this policy.".toList).answer =
          "yes".toList) := by
  have hproj : ∀ query clause : Str,
      (fallbackEvaluateClause query clause).confidence =
        fallbackConfidence query clause ∧
      (fallbackEvaluateClause query clause).answer =
        (if fallbackConfidence query clause > 3/10 then "yes".toList
         else "no".toList) ∧
      (fallbackEvaluateClause query clause).directAnswer =
        (if fallbackConfidence query clause > 3/10 then
          (if clause.length > 200 then clause.take 200 ++ "...".toList else clause)
         else "No relevant information found".toList) := by
    intro query clause
    by_cases h : fallbackConfidence query clause > 3/10 <;>
      simp [fallbackEvaluateClause, h]
  have hexconf : fallbackConfidence "Is knee surgery covered?".toList
      "Knee surgery is covered under this policy.".toList = 3/4 := by
    have hT : (wordSet "Is knee surgery covered?".toList).length = 4 := by decide
    have hO : wordOverlap "Is knee surgery covered?".toList
        "Knee surgery is covered under this policy.".toList = 3 := by decide
    rw [fallbackConfidence_eq, hT, hO]
    norm_num
  refine ⟨fun query clause => ?_, ?_⟩
  · obtain ⟨hc, ha, hd⟩ := hproj query clause
    refine ⟨hc ▸ fallbackConfidence_nonneg query clause,
      hc ▸ fallbackConfidence_le_one query clause,
      hc ▸ fallbackConfidence_eq query clause, ?_, ?_⟩
    · rw [ha, hc]
      by_cases h : fallbackConfidence query clause > 3/10
      · simp [h]
      · simp only [h, if_false, iff_false]
        decide
    · rw [hd, hc]
  · obtain ⟨hc, ha, -⟩ := hproj "Is knee surgery covered?".toList
      "Knee surgery is covered under this policy.".toList
    have hgt : fallbackConfidence "Is knee surgery covered?".toList
        "Knee surgery is covered under this policy.".toList > 3/10 := by
      rw [hexconf]
      norm_num
    exact ⟨hc ▸ hgt, by rw [ha, if_pos hgt]⟩

/-! ## GroqService._fallback_parse_query (src/groq_service.py, lines 89-141) -/

/-- The keyword list built by the chain of substring checks in
`_fallback_parse_query`, in source order; `query_lower` is the argument. -/
def fallbackKeywords (ql : Str) : List Str :=
  (if containsSub "grace period".toList ql then ["grace period".toList] else []) ++
  (if containsSub "waiting period".toList ql then ["waiting period".toList] else []) ++
  (if containsSub "premium".toList ql then ["premium".toList] else []) ++
  (if containsSub "coverage".toList ql then ["coverage".toList] else []) ++
  (if containsSub "hospital".toList ql then ["hospital".toList] else []) ++
  (if containsSub "maternity".toList ql then ["maternity".toList] else []) ++
  (if containsSub "claim".toList ql then ["claim".toList] else []) ++
  (if containsSub "ncd".toList ql || containsSub "no claim discount".toList ql
    then ["ncd".toList] else []) ++
  (if containsSub "deductible".toList ql then ["deductible".toList] else []) ++
  (if containsSub "exclusion".toList ql then ["exclusion".toList] else []) ++
  (if containsSub "benefit".toList ql then ["benefit".toList] else []) ++
  (if containsSub "policy".toList ql then ["policy".toList] else []) ++
  (if containsSub "term".toList ql then ["term".toList] else []) ++
  (if containsSub "renewal".toList ql then ["renewal".toList] else []) ++
  (if containsSub "cancellation".toList ql then ["cancellation".toList] else [])

/-- The intent chosen by `_fallback_parse_query`: a fixed priority chain of
keyword-group substring tests over the lowercased query. -/
def fallbackIntent (ql : Str) : Str :=
  if containsSub "grace".toList ql || containsSub "waiting".toList ql then
    "find_period".toList
  else if containsSub "premium".toList ql || containsSub "payment".toList ql then
    "find_payment_info".toList
  else if containsSub "coverage".toList ql || containsSub "benefit".toList ql then
    "find_coverage".toList
  else if containsSub "claim".toList ql || containsSub "ncd".toList ql then
    "find_claim_info".toList
  else "general_query".toList

/-- Result dictionary of `_fallback_parse_query`. -/
structure ParsedQuery where
  intent : Str
  entities : List Str
  conditions : List Str

/-- `GroqService._fallback_parse_query(query)`. -/
def fallbackParseQuery (query : Str) : ParsedQuery :=
  { intent := fallbackIntent (pyLower query)
    entities := fallbackKeywords (pyLower query)
    conditions := [] }

/-- Written from the spec: the fixed keyword vocabulary together with each
keyword's case-insensitive match condition on the lowercased question
(`"ncd"` also matches the phrase `"no claim discount"`). -/
def specEntityTable (ql : Str) : List (Str × Bool) :=
  [("grace period".toList, containsSub "grace period".toList ql),
   ("waiting period".toList, containsSub "waiting period".toList ql),
   ("premium".toList, containsSub "premium".toList ql),
   ("coverage".toList, containsSub "coverage".toList ql),
   ("hospital".toList, containsSub "hospital".toList ql),
   ("maternity".toList, containsSub "maternity".toList ql),
   ("claim".toList, containsSub "claim".toList ql),
   ("ncd".toList, containsSub "ncd".toList ql ||
     containsSub "no claim discount".toList ql),
   ("deductible".toList, containsSub "deductible".toList ql),
   ("exclusion".toList, containsSub "exclusion".toList ql),
   ("benefit".toList, containsSub "benefit".toList ql),
   ("policy".toList, containsSub "policy".toList ql),
   ("term".toList, containsSub "term".toList ql),
   ("renewal".toList, containsSub "renewal".toList ql),
   ("cancellation".toList, containsSub "cancellation".toList ql)]

/-- Written from the spec: the entities are exactly the vocabulary keywords
whose match condition holds, in vocabulary order. -/
def specEntities (ql : Str) : List Str :=
  ((specEntityTable ql).filter (fun kv => kv.2)).map (fun kv => kv.1)

/-- Written from the spec: priority-ordered intent selection
(period terms, then payment terms, then coverage/benefit terms, then claim
terms, else the general intent). -/
def specIntent (ql : Str) : Str :=
  if containsSub "grace".toList ql || containsSub "waiting".toList ql then
    "find_period".toList
  else if containsSub "premium".toList ql || containsSub "payment".toList ql then
    "find_payment_info".toList
  else if containsSub "coverage".toList ql || containsSub "benefit".toList ql then
    "find_coverage".toList
  else if containsSub "claim".toList ql || containsSub "ncd".toList ql then
    "find_claim_info".toList
  else "general_query".toList

lemma filter_map_eq_foldr (table : List (Str × Bool)) :
    (table.filter (fun kv => kv.2)).map (fun kv => kv.1) =
      table.foldr (fun kv acc => (if kv.2 then [kv.1] else []) ++ acc) [] := by
  induction table with
  | nil => rfl
  | cons kv t ih =>
    rcases kv with ⟨k, b⟩
    rcases b with _ | _ <;> simp [List.filter_cons, ih]

lemma fallbackKeywords_eq_specEntities (ql : Str) :
    fallbackKeywords ql = specEntities ql := by
  rw [specEntities, filter_map_eq_foldr]
  simp only [specEntityTable, List.foldr_cons, List.foldr_nil, fallbackKeywords,
    List.append_assoc, List.append_nil]

/-- C7: the fallback query parser always returns empty conditions, picks the
intent by the fixed priority-ordered keyword groups, and returns exactly the
fixed-vocabulary keywords found case-insensitively in the question; on the
documented example the entities include `"grace period"` and `"premium"`
and the intent is `find_period`. -/
theorem fallbackParseQuery_spec :
    (∀ query : Str,
      (fallbackParseQuery query).conditions = [] ∧
      (fallbackParseQuery query).intent = specIntent (pyLower query) ∧
      (fallbackParseQuery query).entities = specEntities (pyLower query)) ∧
    ("grace period".toList ∈
      (fallbackParseQuery "What is the grace period for premium payment?".toList).entities ∧
     "premium".toList ∈
      (fallbackParseQuery "What is the grace period for premium payment?".toList).entities ∧
     (fallbackParseQuery "What is the grace period for premium payment?".toList).intent =
      "find_period".toList) := by
  refine ⟨fun query => ⟨rfl, rfl, ?_⟩, by decide, by decide, by decide⟩
  exact fallbackKeywords_eq_specEntities (pyLower query)

/-! ## GroqService._fallback_generate_answer (src/groq_service.py, lines 260-288) -/

/-- The stripped period-split sentences of the combined text that contain
at least one lowercase word of the query, in order, as collected by the
loop in `_fallback_generate_answer`. -/
def relevantSentences (query : Str) (combinedText : Str) : List Str :=
  ((splitOnChar '.' combinedText).filter
    (fun s => (splitWs (pyLower query)).any
      (fun w => containsSub w (pyLower s)))).map pyStrip

/-- `GroqService._fallback_generate_answer(query, relevant_texts)`. -/
def fallbackGenerateAnswer (query : Str) (relevantTexts : List Str) : Str :=
  if relevantTexts = [] then
    "No relevant information found in the document.".toList
  else
    let combinedText := joinWith " ".toList relevantTexts
    let rel := relevantSentences query combinedText
    if rel ≠ [] then
      let answer := joinWith ". ".toList (rel.take 3)
      if pyEndsWith answer ".".toList = false then answer ++ ".".toList
      else answer
    else
      if combinedText.length > 500 then combinedText.take 500 ++ "...".toList
      else combinedText

/-- Written from the spec: with no relevant texts, the fixed
no-relevant-information sentence; otherwise join up to the first three
period-split sentences of the concatenation that contain a lowercase query
word, with `". "` and a guaranteed trailing period; with no matching
sentence, the first 500 characters of the concatenation (ellipsis when
truncated). -/
def specGenerateAnswer (query : Str) (relevantTexts : List Str) : Str :=
  if relevantTexts = [] then
    "No relevant information found in the document.".toList
  else
    let combined := joinWith " ".toList relevantTexts
    let matching := relevantSentences query combined
    if matching = [] then
      if combined.length > 500 then combined.take 500 ++ "...".toList
      else combined
    else
      let joined := joinWith ". ".toList (matching.take 3)
      if pyEndsWith joined ".".toList then joined else joined ++ ".".toList

lemma pyEndsWith_append_dot (xs : Str) :
    pyEndsWith (xs ++ ".".toList) ".".toList = true := by
  simp [pyEndsWith, List.isSuffixOf, List.reverse_append, List.isPrefixOf]

/-- C8: the fallback answer generator agrees with its specification: the
fixed sentence on an empty text list, otherwise the `". "`-join of the
first three matching sentences with a guaranteed trailing period, and the
(possibly truncated) concatenated text when no sentence matches. -/
theorem fallbackGenerateAnswer_spec :
    (∀ (query : Str) (ts : List Str),
      fallbackGenerateAnswer query ts = specGenerateAnswer query ts) ∧
    (∀ query : Str, fallbackGenerateAnswer query [] =
      "No relevant information found in the document.".toList) ∧
    (∀ (query : Str) (ts : List Str), ts ≠ [] →
      relevantSentences query (joinWith " ".toList ts) ≠ [] →
      pyEndsWith (fallbackGenerateAnswer query ts) ".".toList = true) := by
  refine ⟨fun query ts => ?_, fun query => rfl, fun query ts hts hrel => ?_⟩
  · simp only [fallbackGenerateAnswer, specGenerateAnswer]
    split_ifs <;> simp_all
  · unfold fallbackGenerateAnswer
    simp only [hts, if_false]
    simp only [hrel, ne_eq, not_false_eq_true, if_true]
    rcases hend : pyEndsWith (joinWith ". ".toList
        ((relevantSentences query (joinWith " ".toList ts)).take 3))
        ".".toList with _ | _
    · simpa [hend] using pyEndsWith_append_dot _
    · simpa [hend] using hend

/-- Witness for C8 at a concrete input: one nonempty text whose first
sentence matches the query, with the resulting answer ending in a
period. -/
theorem fallbackGenerateAnswer_spec_witness :
    (["The grace period is 30 days".toList] : List Str) ≠ [] ∧
    relevantSentences "grace period".toList
      (joinWith " ".toList ["The grace period is 30 days".toList]) ≠ [] ∧
    pyEndsWith (fallbackGenerateAnswer "grace period".toList
      ["The grace period is 30 days".toList]) ".".toList = true :=
  ⟨by decide, by decide,
   fallbackGenerateAnswer_spec.2.2 "grace period".toList
     ["The grace period is 30 days".toList] (by decide) (by decide)⟩

/-! ## EmbeddingServiceVercel._simple_text_to_vector
(src/embedding_service_vercel.py, lines 63-80)

`hashlib.md5(...).hexdigest()` is a library primitive, so the digest
function is a parameter `md5hex : Str → Str`; its documented contract (32
lowercase hexadecimal characters) becomes a hypothesis of the theorems. -/

/-- Value of a hexadecimal digit character, as `int(c, 16)` computes it
(`0` on other characters, which the digest contract excludes). -/
def hexDigitVal (c : Char) : Nat :=
  if 48 ≤ c.toNat ∧ c.toNat ≤ 57 then c.toNat - 48
  else if 97 ≤ c.toNat ∧ c.toNat ≤ 102 then c.toNat - 87
  else if 65 ≤ c.toNat ∧ c.toNat ≤ 70 then c.toNat - 55
  else 0

/-- The integer values `int(text_hash[i:i+2], 16)` of the two-character
slices taken at even offsets (a trailing odd character would be parsed as a
single digit, matching the slice semantics). -/
def hexPairsVals : List Char → List Nat
  | a :: b :: rest => (16 * hexDigitVal a + hexDigitVal b) :: hexPairsVals rest
  | [a] => [hexDigitVal a]
  | [] => []

/-- `EmbeddingServiceVercel._simple_text_to_vector(text)`: each hex pair of
the digest becomes a component `value / 255`, collection stops at 128
components, and the vector is zero-padded to exactly 128 dimensions.
Components are modelled as exact rationals. -/
def simpleTextToVector (md5hex : Str → Str) (text : Str) : List ℚ :=
  let vector := ((hexPairsVals (md5hex text)).map
    (fun n : ℕ => (n : ℚ) / 255)).take 128
  (vector ++ List.replicate (128 - vector.length) (0 : ℚ)).take 128

/-- Lowercase hexadecimal digit, the alphabet of `hexdigest()` outputs. -/
def isLowerHexDigit (c : Char) : Bool :=
  (48 ≤ c.toNat && c.toNat ≤ 57) || (97 ≤ c.toNat && c.toNat ≤ 102)

lemma hexDigitVal_le (c : Char) : hexDigitVal c ≤ 15 := by
  unfold hexDigitVal
  split_ifs with h1 h2 h3 <;> omega

lemma hexPairsVals_le (l : List Char) : ∀ n ∈ hexPairsVals l, n ≤ 255 := by
  match l with
  | [] => intro n hn; simp [hexPairsVals] at hn
  | [a] =>
    intro n hn
    simp only [hexPairsVals, List.mem_singleton] at hn
    have := hexDigitVal_le a
    omega
  | a :: b :: rest =>
    intro n hn
    simp only [hexPairsVals, List.mem_cons] at hn
    rcases hn with rfl | hn
    · have ha := hexDigitVal_le a
      have hb := hexDigitVal_le b
      omega
    · exact hexPairsVals_le rest n hn

lemma hexPairsVals_length : ∀ l : List Char,
    (hexPairsVals l).length = (l.length + 1) / 2
  | [] => rfl
  | [_] => by simp [hexPairsVals]
  | a :: b :: rest => by
    simp only [hexPairsVals, List.length_cons, hexPairsVals_length rest]
    omega

lemma hexDigitVal_injOn {c d : Char} (hc : isLowerHexDigit c = true)
    (hd : isLowerHexDigit d = true) (h : hexDigitVal c = hexDigitVal d) :
    c = d := by
  simp only [isLowerHexDigit, Bool.or_eq_true, Bool.and_eq_true,
    decide_eq_true_eq] at hc hd
  have htoNat : c.toNat = d.toNat := by
    unfold hexDigitVal at h
    rcases hc with ⟨hc1, hc2⟩ | ⟨hc1, hc2⟩ <;>
      rcases hd with ⟨hd1, hd2⟩ | ⟨hd1, hd2⟩ <;>
      · split_ifs at h <;> omega
  exact Char.ext (UInt32.toNat.inj htoNat)

/-- On equal-length lowercase-hex strings, the pair values determine the
string. -/
lemma hexPairsVals_injOn : ∀ {l1 l2 : List Char},
    l1.length = l2.length →
    (∀ c ∈ l1, isLowerHexDigit c = true) →
    (∀ c ∈ l2, isLowerHexDigit c = true) →
    hexPairsVals l1 = hexPairsVals l2 → l1 = l2 := by
  intro l1
  match l1 with
  | [] =>
    intro l2 hlen _ _ _
    cases l2 with
    | nil => rfl
    | cons c cs => simp at hlen
  | [a] =>
    intro l2 hlen h1 h2 hv
    match l2 with
    | [] => simp at hlen
    | [c] =>
      simp only [hexPairsVals, List.cons.injEq, and_true] at hv
      have ha := h1 a (by simp)
      have hc := h2 c (by simp)
      have ha15 := hexDigitVal_le a
      have hc15 := hexDigitVal_le c
      rw [hexDigitVal_injOn ha hc hv]
    | c :: d :: cs => simp at hlen
  | a :: b :: rest =>
    intro l2 hlen h1 h2 hv
    match l2 with
    | [] => simp at hlen
    | [c] => simp at hlen
    | c :: d :: cs =>
      simp only [hexPairsVals, List.cons.injEq] at hv
      obtain ⟨hv1, hv2⟩ := hv
      have ha := h1 a (by simp)
      have hb := h1 b (by simp)
      have hc := h2 c (by simp)
      have hd := h2 d (by simp)
      have hb15 := hexDigitVal_le b
      have hd15 := hexDigitVal_le d
      have hac : hexDigitVal a = hexDigitVal c := by omega
      have hbd : hexDigitVal b = hexDigitVal d := by omega
      have hrest : rest = cs := by
        apply hexPairsVals_injOn (by simpa using hlen)
          (fun x hx => h1 x (by simp [hx])) (fun x hx => h2 x (by simp [hx])) hv2
      rw [hexDigitVal_injOn ha hc hac, hexDigitVal_injOn hb hd hbd, hrest]

/-- Normal form of the vector for a 32-character digest: the 16 pair values
scaled by `1/255`, followed by 112 zeros. -/
lemma simpleTextToVector_eq (md5hex : Str → Str) (t : Str)
    (hlen : (md5hex t).length = 32) :
    simpleTextToVector md5hex t =
      (hexPairsVals (md5hex t)).map (fun n : ℕ => (n : ℚ) / 255) ++
        List.replicate 112 (0 : ℚ) := by
  have h16 : ((hexPairsVals (md5hex t)).map
      (fun n : ℕ => (n : ℚ) / 255)).length = 16 := by
    rw [List.length_map, hexPairsVals_length, hlen]
  have hv : (hexPairsVals (md5hex t)).length = 16 := by
    rw [hexPairsVals_length, hlen]
  simp only [simpleTextToVector]
  rw [List.take_of_length_le (le_of_eq_of_le h16 (by norm_num)), h16]
  norm_num
  simp [hv]

/-- C3: the surrogate embedder is a pure function producing, for any digest
function meeting the `hexdigest` contract (32 lowercase-hex characters),
a 128-dimensional vector with every component in `[0, 1]`; it is
deterministic, and two texts receive the same vector only when their
digests collide. -/
theorem simpleTextToVector_pure_bounded (md5hex : Str → Str)
    (hlen : ∀ t, (md5hex t).length = 32)
    (hhex : ∀ t, ∀ c ∈ md5hex t, isLowerHexDigit c = true) :
    (∀ t, (simpleTextToVector md5hex t).length = 128) ∧
    (∀ t, ∀ x ∈ simpleTextToVector md5hex t, 0 ≤ x ∧ x ≤ 1) ∧
    (∀ t1 t2, t1 = t2 →
      simpleTextToVector md5hex t1 = simpleTextToVector md5hex t2) ∧
    (∀ t1 t2, simpleTextToVector md5hex t1 = simpleTextToVector md5hex t2 →
      md5hex t1 = md5hex t2) := by
  refine ⟨fun t => ?_, fun t x hx => ?_, fun t1 t2 h => by rw [h], fun t1 t2 h => ?_⟩
  · rw [simpleTextToVector_eq md5hex t (hlen t)]
    simp [hexPairsVals_length, hlen t]
  · rw [simpleTextToVector_eq md5hex t (hlen t)] at hx
    rcases List.mem_append.mp hx with hx | hx
    · obtain ⟨n, hn, rfl⟩ := List.mem_map.mp hx
      have hn255 : n ≤ 255 := hexPairsVals_le (md5hex t) n hn
      constructor
      · positivity
      · rw [div_le_one (by norm_num)]
        exact_mod_cast le_trans hn255 (by norm_num)
    · rw [List.eq_of_mem_replicate hx]
      norm_num
  · rw [simpleTextToVector_eq md5hex t1 (hlen t1),
      simpleTextToVector_eq md5hex t2 (hlen t2)] at h
    have hmaplen : ((hexPairsVals (md5hex t1)).map
        (fun n : ℕ => (n : ℚ) / 255)).length =
        ((hexPairsVals (md5hex t2)).map (fun n : ℕ => (n : ℚ) / 255)).length := by
      simp [hexPairsVals_length, hlen t1, hlen t2]
    have hmaps := (List.append_inj h hmaplen).1
    have hinj : Function.Injective (fun n : ℕ => (n : ℚ) / 255) := by
      intro a b hab
      simp only at hab
      field_simp at hab
      exact_mod_cast hab
    have hvals : hexPairsVals (md5hex t1) = hexPairsVals (md5hex t2) :=
      List.map_injective_iff.mpr hinj hmaps
    exact hexPairsVals_injOn ((hlen t1).trans (hlen t2).symm)
      (hhex t1) (hhex t2) hvals

/-- A fixed digest function meeting the `hexdigest` contract, used by the
witnesses. -/
def constDigest : Str → Str := fun _ => "0123456789abcdef0123456789abcdef".toList

/-- Witness for C3 with a concrete digest function meeting the contract. -/
theorem simpleTextToVector_pure_bounded_witness :
    (simpleTextToVector constDigest "knee surgery".toList).length = 128 := by
  have h1 : ∀ t : Str, (constDigest t).length = 32 := by
    intro t
    show ("0123456789abcdef0123456789abcdef".toList).length = 32
    decide
  have h2 : ∀ t : Str, ∀ c ∈ constDigest t, isLowerHexDigit c = true := by
    intro t
    show ∀ c ∈ "0123456789abcdef0123456789abcdef".toList, isLowerHexDigit c = true
    decide
  exact (simpleTextToVector_pure_bounded constDigest h1 h2).1
    "knee surgery".toList

/-- C10: for any digest function meeting the `hexdigest` contract, the
first 16 components of the surrogate vector are exactly the scaled pair
values of the digest, and components 16 through 127 are all zero: the MD5
hex digest supplies only 16 byte pairs before zero-padding. -/
theorem simpleTextToVector_zero_tail (md5hex : Str → Str)
    (hlen : ∀ t, (md5hex t).length = 32) :
    ∀ t, (simpleTextToVector md5hex t).take 16 =
        (hexPairsVals (md5hex t)).map (fun n : ℕ => (n : ℚ) / 255) ∧
      (simpleTextToVector md5hex t).drop 16 = List.replicate 112 (0 : ℚ) := by
  intro t
  have h16 : ((hexPairsVals (md5hex t)).map
      (fun n : ℕ => (n : ℚ) / 255)).length = 16 := by
    rw [List.length_map, hexPairsVals_length, hlen]
  rw [simpleTextToVector_eq md5hex t (hlen t), ← h16, List.take_left,
    List.drop_left]
  exact ⟨rfl, rfl⟩

/-- Witness for C10 with a concrete digest function meeting the contract. -/
theorem simpleTextToVector_zero_tail_witness :
    (simpleTextToVector constDigest "premium".toList).drop 16 =
      List.replicate 112 (0 : ℚ) := by
  have h1 : ∀ t : Str, (constDigest t).length = 32 := by
    intro t
    show ("0123456789abcdef0123456789abcdef".toList).length = 32
    decide
  exact (simpleTextToVector_zero_tail constDigest h1 "premium".toList).2

/-! ## EmbeddingServiceVercel state (src/embedding_service_vercel.py)

The Pinecone client is a third-party service: its store is modelled as a
list of records behind an `Option` (`none` when credentials are missing or
initialisation failed), and its query as a score-ranked scan of the store.
Python's builtin `hash` is a parameter `hashFn`. -/

/-- A chunk dictionary passed to `index_documents` (the parser's chunk
metadata has no `source`/`timestamp` keys, hence the options). -/
structure DocChunk where
  text : Str
  source : Option String := none
  timestamp : Option String := none
deriving DecidableEq

/-- A record stored in the Pinecone index: id, vector, and the metadata
written by `index_documents`. -/
structure PineconeRecord where
  id : String
  values : List ℚ
  metaText : Str
  metaSource : String
  metaTimestamp : String

/-- Modelled from the spec: the Pinecone index is a store of records. -/
structure PineconeBackend where
  records : List PineconeRecord

/-- The service state: `pc` is `none` when Pinecone credentials are missing
or initialisation failed. -/
structure VercelService where
  pc : Option PineconeBackend

/-- The record id `f"doc_{i}_{hash(doc['text'][:100])}"` built by
`index_documents` for position `i`. -/
def recordId (hashFn : Str → Int) (i : Nat) (text : Str) : String :=
  "doc_" ++ toString i ++ "_" ++ toString (hashFn (text.take 100))

/-- The ids `index_documents` generates for a batch of chunk texts. -/
def recordIds (hashFn : Str → Int) (texts : List Str) : List String :=
  texts.enum.map (fun it => recordId hashFn it.1 it.2)

/-- Modelled from the spec: the Pinecone client's `upsert` overwrites any
stored record whose id matches a new one and appends the new records (the
client itself is not part of the repository). -/
def upsertRecords (existing news : List PineconeRecord) :
    List PineconeRecord :=
  existing.filter (fun r => news.all (fun n => n.id != r.id)) ++ news

/-- `EmbeddingServiceVercel.index_documents(documents)`: `false` when the
client is uninitialised or no embeddings were generated, otherwise upserts
one record per chunk with a content-derived id and truncated metadata. -/
def indexDocuments (md5hex : Str → Str) (hashFn : Str → Int)
    (svc : VercelService) (docs : List DocChunk) : Bool × VercelService :=
  match svc.pc with
  | none => (false, svc)
  | some backend =>
    let embeddings := (docs.map (fun d => d.text)).map (simpleTextToVector md5hex)
    if embeddings = [] then (false, svc)
    else
      let vectors := (docs.zip embeddings).enum.map (fun ie =>
        { id := recordId hashFn ie.1 ie.2.1.text
          values := ie.2.2
          metaText := ie.2.1.text.take 1000
          metaSource := ie.2.1.source.getD "unknown"
          metaTimestamp := ie.2.1.timestamp.getD "" : PineconeRecord })
      (true, { pc := some { records := upsertRecords backend.records vectors } })

/-- A search result dictionary of `search_similar`. -/
structure SimilarDoc where
  id : String
  score : ℚ
  text : Str
  source : String
  timestamp : String
deriving DecidableEq

/-- Modelled from the spec: the Pinecone query ranks the stored records by
similarity score (a parameter `score`) and returns the first `top_k`. -/
def queryBackend (score : List ℚ → List ℚ → ℚ) (b : PineconeBackend)
    (v : List ℚ) (topK : Nat) : List (PineconeRecord × ℚ) :=
  ((b.records.map (fun r => (r, score v r.values))).mergeSort
    (fun x y => decide (x.2 ≥ y.2))).take topK

/-- `EmbeddingServiceVercel.search_similar(query, top_k)`: empty when the
client is uninitialised or the query embedding list is empty, otherwise the
formatted backend matches. -/
def searchSimilar (md5hex : Str → Str) (score : List ℚ → List ℚ → ℚ)
    (svc : VercelService) (query : Str) (topK : Nat) : List SimilarDoc :=
  match svc.pc with
  | none => []
  | some backend =>
    match [query].map (simpleTextToVector md5hex) with
    | [] => []
    | qv :: _ =>
      (queryBackend score backend qv topK).map (fun m =>
        { id := m.1.id
          score := m.2
          text := m.1.metaText
          source := m.1.metaSource
          timestamp := m.1.metaTimestamp })

/-- `EmbeddingServiceVercel.clear_index()`. -/
def clearIndex (svc : VercelService) : Bool × VercelService :=
  match svc.pc with
  | none => (false, svc)
  | some _ => (true, { pc := some { records := [] } })

/-- Result of `get_index_stats`: the error mapping or the index stats
(vector count and dimension). -/
inductive StatsResult where
  | err : String → StatsResult
  | stats : Nat → Nat → StatsResult

/-- `EmbeddingServiceVercel.get_index_stats()`. -/
def getIndexStats (svc : VercelService) : StatsResult :=
  match svc.pc with
  | none => .err "Pinecone not initialized"
  | some backend => .stats backend.records.length 128

/-- C9: with the backend unavailable (`pc = none`) no operation throws:
`index_documents` and `clear_index` return `false`, `search_similar`
returns the empty list, and `get_index_stats` returns the error mapping;
and a search against an empty index also returns the empty list. -/
theorem backendUnavailable_degrades (md5hex : Str → Str)
    (score : List ℚ → List ℚ → ℚ) (hashFn : Str → Int)
    (query : Str) (topK : Nat) (docs : List DocChunk)
    (svc : VercelService) (hsvc : svc.pc = none)
    (svc2 : VercelService) (hsvc2 : svc2.pc = some ⟨[]⟩) :
    (indexDocuments md5hex hashFn svc docs).1 = false ∧
    (clearIndex svc).1 = false ∧
    searchSimilar md5hex score svc query topK = [] ∧
    getIndexStats svc = .err "Pinecone not initialized" ∧
    searchSimilar md5hex score svc2 query topK = [] := by
  obtain ⟨pc⟩ := svc
  obtain ⟨pc2⟩ := svc2
  simp only at hsvc hsvc2
  subst hsvc
  subst hsvc2
  refine ⟨rfl, rfl, rfl, rfl, ?_⟩
  simp [searchSimilar, queryBackend]

/-- Witness for C9 at concrete disabled and empty services. -/
theorem backendUnavailable_degrades_witness :
    (indexDocuments constDigest (fun _ => 0) ⟨none⟩ []).1 = false ∧
    (clearIndex ⟨none⟩).1 = false ∧
    searchSimilar constDigest (fun _ _ => 0) ⟨none⟩ [] 5 = [] ∧
    getIndexStats ⟨none⟩ = .err "Pinecone not initialized" ∧
    searchSimilar constDigest (fun _ _ => 0) ⟨some ⟨[]⟩⟩ [] 5 = [] :=
  backendUnavailable_degrades constDigest (fun _ _ => 0) (fun _ => 0)
    [] 5 [] ⟨none⟩ rfl ⟨some ⟨[]⟩⟩ rfl

lemma recordIds_enumFrom (hashFn : Str → Int) :
    ∀ (n : Nat) (ts1 ts2 : List Str),
      ts1.map (fun t => t.take 100) = ts2.map (fun t => t.take 100) →
      (List.enumFrom n ts1).map (fun it => recordId hashFn it.1 it.2) =
        (List.enumFrom n ts2).map (fun it => recordId hashFn it.1 it.2) := by
  intro n ts1
  induction ts1 generalizing n with
  | nil =>
    intro ts2 h
    cases ts2 with
    | nil => rfl
    | cons t2 ts2' => simp at h
  | cons t ts ih =>
    intro ts2 h
    cases ts2 with
    | nil => simp at h
    | cons t2 ts2' =>
      simp only [List.map_cons, List.cons.injEq] at h
      obtain ⟨h1, h2⟩ := h
      simp only [List.enumFrom, List.map_cons, List.cons.injEq]
      constructor
      · unfold recordId
        rw [h1]
      · exact ih (n + 1) ts2' h2

/-- C6: the record ids of `index_documents` are derived only from the
batch position and the first 100 characters of each chunk text, so
indexing the same chunk sequence twice (with the same hash function)
generates identical ids and the upsert overwrites rather than
duplicates. -/
theorem recordIds_content_derived (hashFn : Str → Int) (ts1 ts2 : List Str)
    (h : ts1.map (fun t => t.take 100) = ts2.map (fun t => t.take 100)) :
    recordIds hashFn ts1 = recordIds hashFn ts2 :=
  recordIds_enumFrom hashFn 0 ts1 ts2 h

/-- Witness for C6: two batches whose texts agree on their first 100
characters but differ at position 100 receive identical ids. -/
theorem recordIds_content_derived_witness :
    ([List.replicate 101 'a'] : List Str).map (fun t => t.take 100) =
      ([List.replicate 100 'a' ++ ['b']] : List Str).map (fun t => t.take 100) ∧
    recordIds (fun _ => 0) [List.replicate 101 'a'] =
      recordIds (fun _ => 0) [List.replicate 100 'a' ++ ['b']] :=
  ⟨by decide, recordIds_content_derived (fun _ => 0) _ _ (by decide)⟩

/-! ## hackrx_run (src/api_routes.py, lines 90-150)

Document download/parsing, indexing, clause search and LLM answer
generation are awaited service calls; they enter the model as the already
computed chunk list, the indexing outcome, and per-question search and
answer oracles.  The bearer-token check of `get_current_user` runs before
the handler body. -/

/-- The fixed shared secret of `get_current_user`. -/
def expectedApiKey : String :=
  "4a7809a665f2f39b1f2fa7c7073518e6baa4ebe9309eea30dae92adba5772d8c"

/-- The answer the question loop computes for one question: the fixed
no-relevant-information sentence when the clause search returns nothing,
otherwise the generated answer over the found clause texts. -/
def answerForQuestion (searchRes : Str → List SimilarDoc)
    (genAnswer : Str → List Str → Str) (question : Str) : Str :=
  if searchRes question = [] then
    "No relevant information found in the document.".toList
  else genAnswer question ((searchRes question).map (fun c => c.text))

/-- `hackrx_run(request)`: 401 on a bad token, 400 when document
processing yields no chunks, 500 when indexing reports failure, otherwise
one answer per question in input order. -/
def hackrxRun (token : String) (chunks : List DocChunk) (indexOk : Bool)
    (searchRes : Str → List SimilarDoc) (genAnswer : Str → List Str → Str)
    (questions : List Str) : Except Nat (List Str) :=
  if token ≠ expectedApiKey then .error 401
  else if chunks = [] then .error 400
  else if indexOk = false then .error 500
  else .ok (questions.map (answerForQuestion searchRes genAnswer))

/-- C5: with a valid token, the handler fails with 400 when document
processing yields no chunks, with 500 when indexing reports failure, and
otherwise returns exactly one answer per input question in input order. -/
theorem hackrxRun_spec (token : String) (chunks : List DocChunk)
    (indexOk : Bool) (searchRes : Str → List SimilarDoc)
    (genAnswer : Str → List Str → Str) (questions : List Str)
    (htok : token = expectedApiKey) :
    (chunks = [] →
      hackrxRun token chunks indexOk searchRes genAnswer questions =
        .error 400) ∧
    (chunks ≠ [] → indexOk = false →
      hackrxRun token chunks indexOk searchRes genAnswer questions =
        .error 500) ∧
    (chunks ≠ [] → indexOk = true →
      hackrxRun token chunks indexOk searchRes genAnswer questions =
        .ok (questions.map (answerForQuestion searchRes genAnswer)) ∧
      (questions.map (answerForQuestion searchRes genAnswer)).length =
        questions.length) := by
  subst htok
  refine ⟨fun h => ?_, fun h hio => ?_, fun h hio => ⟨?_, by simp⟩⟩
  · simp [hackrxRun, h]
  · simp [hackrxRun, h, hio]
  · simp [hackrxRun, h, hio]

/-- Witness for C5: the 400 branch at a concrete valid-token request with
no chunks. -/
theorem hackrxRun_spec_witness :
    expectedApiKey = expectedApiKey ∧
    hackrxRun expectedApiKey [] true (fun _ => []) (fun _ _ => [])
      ["q".toList] = .error 400 :=
  ⟨rfl, (hackrxRun_spec expectedApiKey [] true (fun _ => []) (fun _ _ => [])
    ["q".toList] rfl).1 rfl⟩
